import Mathlib

/-!
Shallow embedding of the streaming CSV engine in c_src/csv_parser_nif.c.

The engine keeps one session per caller: a fed input buffer with a
consumption cursor, a reusable row buffer of growable cells, an optional
capture (projection) index list, and the resumable state of an external
tokenizer (libcsv, vendored outside src) that is driven one chunk at a
time and reports fields and record boundaries through two callbacks.

Machine integers are modelled as Nat (sizes and counters in the source are
size_t/unsigned and never overflow on reachable values), byte buffers as
lists of byte values, and NULL pointers as Option. The tokenizer is not in
src, so it is modelled from the spec as an opaque per-byte state machine.
-/

namespace Csv

/-- One input byte value. -/
abbrev Byte := Nat

/-- One projected output row: the emitted cell values. The source renders
each value with make_output_term either as an Erlang binary or as a latin-1
string of the same bytes, depending on OPTION_RETURN_BINARY; both carry
exactly the cell's bytes, so output values are modelled as byte lists. -/
abbrev OutRow := List (List Byte)

/-- The MAX_PARSE_SIZE constant from the source. -/
def MAX_PARSE_SIZE : Nat := 128

/-- The MAX_ROWS_PER_BATCH constant from the source. -/
def MAX_ROWS_PER_BATCH : Nat := 64

/-- A reusable growable field buffer (struct cell): dataAllocated models
data_ptr being non-NULL, allocatedSize models allocated_size, and content
models the data_size valid bytes currently stored (so data_size is
content.length). -/
structure Cell where
  dataAllocated : Bool
  allocatedSize : Nat
  content : List Byte
  deriving DecidableEq, Repr

/-- The empty_cell initializer from the source. -/
def empty_cell : Cell := { dataAllocated := false, allocatedSize := 0, content := [] }

/-- Translation of align_cell_size. The source computes
ceil(size / 16.0) * 16 in double arithmetic, which for every size below
2^53 is exact; this is that value as a natural-number ceiling: the smallest
multiple of 16 that is at least size. -/
def align_cell_size (size : Nat) : Nat := ((size + 15) / 16) * 16

/-- Translation of ensure_cell_size: if the buffer is unallocated or too
small, free it and allocate align_cell_size size bytes. After the realloc
the C buffer bytes are unspecified until the caller writes them; the model
keeps the old content, which is unobservable because the only caller
(add_cell) overwrites the content immediately. -/
def ensure_cell_size (cell : Cell) (size : Nat) : Cell :=
  if cell.dataAllocated = false ∨ cell.allocatedSize < size then
    { dataAllocated := true, allocatedSize := align_cell_size size, content := cell.content }
  else cell

/-- Invariant of every reachable cell: a cell whose buffer was never
allocated has allocated_size 0 (empty_cell starts both fields together and
ensure_cell_size updates both together). -/
def CellInv (c : Cell) : Prop := c.dataAllocated = false → c.allocatedSize = 0

/-- The row buffer (struct row_buffer): cells models the allocated_n cells
pointed to by cells_ptr (allocated_n is cells.length), cols_used counts the
columns of the row being assembled. -/
structure RowBuffer where
  cells : List Cell
  cols_used : Nat
  deriving DecidableEq, Repr

/-- Translation of ensure_row_buffer_space: grow by a fixed increment of 5
empty cells when all allocated cells are in use, preserving existing cells. -/
def ensure_row_buffer_space (rb : RowBuffer) : RowBuffer :=
  if rb.cols_used = rb.cells.length then
    { rb with cells := rb.cells ++ List.replicate 5 empty_cell }
  else rb

/-- Translation of is_output_column: with no capture spec every column is
output; with a capture spec the loop compares col_i against each stored
index, i.e. tests membership. -/
def is_output_column (capture : Option (List Nat)) (col_i : Nat) : Bool :=
  match capture with
  | none => true
  | some idxs => decide (col_i ∈ idxs)

/-- The write performed by add_cell into the selected cell: grow the buffer
as needed, then store the field bytes and set data_size. -/
def write_cell (cell : Cell) (bytes : List Byte) : Cell :=
  { ensure_cell_size cell bytes.length with content := bytes }

/-- Translation of add_cell (the column_callback body): ensure a free cell
slot, copy the field bytes into the cell at the current column when that
column is an output column, and advance cols_used unconditionally. -/
def add_cell (bytes : List Byte) (capture : Option (List Nat)) (rb : RowBuffer) : RowBuffer :=
  let rb1 := ensure_row_buffer_space rb
  let rb2 :=
    if is_output_column capture rb1.cols_used then
      { rb1 with
        cells := rb1.cells.set rb1.cols_used
          (write_cell (rb1.cells.getD rb1.cols_used empty_cell) bytes) }
    else rb1
  { rb2 with cols_used := rb2.cols_used + 1 }

/-- Translation of make_output_terms: with no capture spec, emit the
cols_used cells in order; with a capture spec, emit one value per requested
index, the cell's bytes when the index is within cols_used and a
zero-length value (make_output_term of NULL and 0) otherwise. -/
def make_output_terms (capture : Option (List Nat)) (rb : RowBuffer) : OutRow :=
  match capture with
  | none => (List.range rb.cols_used).map fun i => (rb.cells.getD i empty_cell).content
  | some idxs =>
      idxs.map fun i =>
        if i < rb.cols_used then (rb.cells.getD i empty_cell).content else []

/-- The sequence of column_callback (add_cell) invocations delivered for
the fields of one record, in order. -/
def add_cells (capture : Option (List Nat)) (rb : RowBuffer) (fields : List (List Byte)) :
    RowBuffer :=
  fields.foldl (fun rb f => add_cell f capture rb) rb

/-- A callback event from the tokenizer: libcsv invokes column_callback
with each completed field's bytes and row_callback at each record
boundary. -/
inductive Ev where
  | field (bytes : List Byte)
  | record
  deriving DecidableEq, Repr

/-- The number of record-complete events in an event list. -/
def recordCount : List Ev → Nat
  | [] => 0
  | Ev.field _ :: evs => recordCount evs
  | Ev.record :: evs => recordCount evs + 1

/-- Modelled from the spec: the tokenizer (libcsv, not part of src) is an
external collaborator consumed as an opaque resumable state machine that,
fed one byte, advances its state and synchronously emits field-complete
and record-complete callback events; fin models csv_fini, which flushes a
pending unterminated final record. Tokenizer syntax errors are not
modelled (step and fin are total), so the fatal csv_parse-failed and
csv_fini-failed branches of the source never arise in the model. -/
structure Tokenizer (σ : Type) where
  step : σ → Byte → σ × List Ev
  fin : σ → σ × List Ev

variable {σ : Type}

/-- Runs the callback bodies for a list of tokenizer events, in order:
a field event runs add_cell (column_callback); a record event runs add_row
(row_callback), which projects the row buffer with make_output_terms,
resets cols_used and appends the projected row to the output batch. The
output batch is modelled as an unbounded list; the source stores it in a
64-slot array guarded by the assert in add_row, shown to hold in the
batch-bound theorem below. -/
def processEvents (capture : Option (List Nat)) :
    RowBuffer → List OutRow → List Ev → RowBuffer × List OutRow
  | rb, rows, [] => (rb, rows)
  | rb, rows, Ev.field bs :: evs => processEvents capture (add_cell bs capture rb) rows evs
  | rb, rows, Ev.record :: evs =>
      processEvents capture { rb with cols_used := 0 }
        (rows ++ [make_output_terms capture rb]) evs

/-- One byte of csv_parse: step the tokenizer on the byte and run the
callbacks it emits against the row buffer and the output batch. -/
def stepByte (T : Tokenizer σ) (capture : Option (List Nat))
    (x : σ × RowBuffer × List OutRow) (b : Byte) : σ × RowBuffer × List OutRow :=
  ((T.step x.1 b).1,
   (processEvents capture x.2.1 x.2.2 (T.step x.1 b).2).1,
   (processEvents capture x.2.1 x.2.2 (T.step x.1 b).2).2)

/-- csv_parse over a byte chunk: the tokenizer consumes the bytes in
order, synchronously running the callbacks as it goes. -/
def runBytes (T : Tokenizer σ) (capture : Option (List Nat))
    (x : σ × RowBuffer × List OutRow) (l : List Byte) : σ × RowBuffer × List OutRow :=
  l.foldl (stepByte T capture) x

/-- The fed input buffer (struct csv_buffer): data models data_ptr (none is
NULL) together with the size bytes it points to, so the source's size field
is the stored list's length; consumed is the read cursor. The source
leaves consumed uninitialized until the first feed, but
is_csv_buffer_empty short-circuits on a NULL data_ptr, so the initial
value of consumed is unobservable. -/
structure CsvBuffer where
  data : Option (List Byte)
  consumed : Nat
  deriving DecidableEq, Repr

/-- The size field of struct csv_buffer, always kept equal to the length of
the allocation data_ptr points to (0 when NULL). -/
def CsvBuffer.size (b : CsvBuffer) : Nat := (b.data.getD []).length

/-- Translation of is_csv_buffer_empty. -/
def is_csv_buffer_empty (b : CsvBuffer) : Bool :=
  b.data.isNone || b.size == 0 || decide (b.size ≤ b.consumed)

/-- The bytes fed but not yet consumed. -/
def remaining (b : CsvBuffer) : List Byte := (b.data.getD []).drop b.consumed

/-- Translation of get_csv_chunk: an empty chunk when the buffer is empty,
otherwise up to max_len bytes starting at the cursor, advancing it. -/
def get_csv_chunk (b : CsvBuffer) (max_len : Nat) : List Byte × CsvBuffer :=
  if is_csv_buffer_empty b then ([], b)
  else
    (((b.data.getD []).drop b.consumed).take (min (b.size - b.consumed) max_len),
     { b with consumed := b.consumed + min (b.size - b.consumed) max_len })

/-- An Erlang term as far as update_capture inspects list elements:
enif_get_uint succeeds exactly on non-negative integers (the machine word
width is treated as unbounded, like all sizes in this model). -/
inductive Term where
  | nat (n : Nat)
  | other
  deriving DecidableEq, Repr

/-- The set_capture argument: either a proper list of terms (so
enif_get_list_length succeeds) or any other term. -/
inductive CaptureArg where
  | list (items : List Term)
  | nonlist
  deriving DecidableEq, Repr

/-- Decoding of one list element by enif_get_uint. -/
def enif_get_uint : Term → Option Nat
  | Term.nat n => some n
  | Term.other => none

/-- Translation of extract_capture_list: decode each element with
enif_get_uint, failing at the first non-integer element. -/
def extract_capture_list (items : List Term) : Option (List Nat) :=
  items.mapM enif_get_uint

/-- Translation of update_capture: fail on a non-list argument or on a
list with a non-integer element (leaving the active capture spec to the
caller unchanged); otherwise produce the replacement index list. -/
def update_capture (arg : CaptureArg) : Option (List Nat) :=
  match arg with
  | CaptureArg.nonlist => none
  | CaptureArg.list items => extract_capture_list items

/-- Result of a driving call: the ok-tuple with the output batch, or the
recoverable end-of-buffer error tuple. The fatal tokenizer-error tuples
cannot arise because the abstract tokenizer is total. -/
inductive ParseResult where
  | ok (batch : List OutRow)
  | eob
  deriving DecidableEq, Repr

/-- Result of feed. Allocation failure is not modelled. -/
inductive FeedResult where
  | ok
  | bufferNotEmpty
  deriving DecidableEq, Repr

/-- Result of set_capture. -/
inductive SetCaptureResult where
  | ok
  | badarg
  deriving DecidableEq, Repr

/-- The per-session NIF state (struct state). The options bitmask only
configures the tokenizer's delimiter and the host-term rendering of output
values (see OutRow) and is never consulted elsewhere, so it is not carried
here. -/
structure SessionState (σ : Type) where
  parser : σ
  row_buffer : RowBuffer
  csv_buffer : CsvBuffer
  capture : Option (List Nat)
  deriving DecidableEq, Repr

/-- Translation of feed: reject with the csv-buffer-not-empty error while
the current buffer is not drained, otherwise install a copy of the fed
bytes and reset the cursor. -/
def feed (s : SessionState σ) (bytes : List Byte) : FeedResult × SessionState σ :=
  if is_csv_buffer_empty s.csv_buffer = false then (FeedResult.bufferNotEmpty, s)
  else (FeedResult.ok, { s with csv_buffer := { data := some bytes, consumed := 0 } })

/-- Translation of set_capture. -/
def set_capture (s : SessionState σ) (arg : CaptureArg) :
    SetCaptureResult × SessionState σ :=
  match update_capture arg with
  | none => (SetCaptureResult.badarg, s)
  | some idxs => (SetCaptureResult.ok, { s with capture := some idxs })

/-- Translation of close: csv_fini flushes the tokenizer, the resulting
callbacks run as usual, and the final batch is returned. Note that close
performs no terminal marking of the session state. -/
def close (T : Tokenizer σ) (s : SessionState σ) : ParseResult × SessionState σ :=
  (ParseResult.ok (processEvents s.capture s.row_buffer [] (T.fin s.parser).2).2,
   { s with
     parser := (T.fin s.parser).1,
     row_buffer := (processEvents s.capture s.row_buffer [] (T.fin s.parser).2).1 })

/-- Translation of parse: pull one chunk of at most MAX_PARSE_SIZE bytes;
if none could be pulled report end-of-buffer, otherwise tokenize the chunk
into a fresh output batch. -/
def parse (T : Tokenizer σ) (s : SessionState σ) : ParseResult × SessionState σ :=
  let c := get_csv_chunk s.csv_buffer MAX_PARSE_SIZE
  if c.1.length = 0 then (ParseResult.eob, { s with csv_buffer := c.2 })
  else
    (ParseResult.ok (runBytes T s.capture (s.parser, s.row_buffer, []) c.1).2.2,
     { parser := (runBytes T s.capture (s.parser, s.row_buffer, []) c.1).1,
       row_buffer := (runBytes T s.capture (s.parser, s.row_buffer, []) c.1).2.1,
       csv_buffer := c.2,
       capture := s.capture })

/-- The loop of parse_one_row, recursing over the unconsumed bytes (the
source pulls them through get_csv_chunk with max_len 1, one per
iteration): while the batch is empty, pull one byte and tokenize it;
report end-of-buffer if the buffer runs out first. Returns the outcome
(none for end-of-buffer), the updated tokenizer and row-buffer state, and
the number of bytes pulled. -/
def p1Go (T : Tokenizer σ) (capture : Option (List Nat)) :
    σ → RowBuffer → List OutRow → List Byte → Option (List OutRow) × σ × RowBuffer × Nat
  | p, rb, rows, [] =>
      if rows.isEmpty then (none, p, rb, 0) else (some rows, p, rb, 0)
  | p, rb, rows, b :: rest =>
      if rows.isEmpty then
        match stepByte T capture (p, rb, rows) b with
        | (q, rbq, rows1) =>
          match p1Go T capture q rbq rows1 rest with
          | (res, p2, rb2, k) => (res, p2, rb2, k + 1)
      else (some rows, p, rb, 0)

/-- Translation of parse_one_row: drive the loop, then commit the advanced
cursor and tokenizer state and report the batch or end-of-buffer. -/
def parse_one_row (T : Tokenizer σ) (s : SessionState σ) : ParseResult × SessionState σ :=
  let w := p1Go T s.capture s.parser s.row_buffer [] (remaining s.csv_buffer)
  let s1 : SessionState σ :=
    { parser := w.2.1,
      row_buffer := w.2.2.1,
      csv_buffer := { s.csv_buffer with consumed := s.csv_buffer.consumed + w.2.2.2 },
      capture := s.capture }
  match w.1 with
  | none => (ParseResult.eob, s1)
  | some rows => (ParseResult.ok rows, s1)

/-- Repeatedly calls parse until it reports end-of-buffer, concatenating
the returned batches. fuel bounds the recursion; any fuel exceeding the
number of unconsumed bytes is enough, since every non-eob call consumes at
least one byte. -/
def driveParse (T : Tokenizer σ) : Nat → SessionState σ → List OutRow
  | 0, _ => []
  | fuel + 1, s =>
      match parse T s with
      | (ParseResult.ok rows, s1) => rows ++ driveParse T fuel s1
      | (ParseResult.eob, _) => []

/-- Repeatedly calls parse_one_row until it reports end-of-buffer,
concatenating the returned batches; fuel as in driveParse. -/
def driveOneRow (T : Tokenizer σ) : Nat → SessionState σ → List OutRow
  | 0, _ => []
  | fuel + 1, s =>
      match parse_one_row T s with
      | (ParseResult.ok rows, s1) => rows ++ driveOneRow T fuel s1
      | (ParseResult.eob, _) => []

/-- Modelled from the spec: the tokenizer's external contract that every
completed record consumes at least 2 bytes (one content byte plus one
terminator; the tokenizer skips empty lines), stated as an amortization
invariant. pot st is a potential capped at 1 (intuitively, whether at
least one byte has been consumed toward the record in progress): one input
byte raises the potential by at most 1 and each completed record pays 2,
so over n bytes at most (1 + n) / 2 records complete and no single byte
completes two records. -/
structure TwoByteContract (T : Tokenizer σ) (pot : σ → Nat) : Prop where
  pot_le : ∀ st, pot st ≤ 1
  step_bound : ∀ st b,
    2 * recordCount (T.step st b).2 + pot (T.step st b).1 ≤ pot st + 1

/-- State of the concrete sample tokenizer: the bytes of the field being
read and whether the current record already saw a delimiter. -/
structure TokState where
  pending : List Byte
  rowStarted : Bool
  deriving DecidableEq, Repr

/-- Modelled from the spec: one byte of a minimal concrete tokenizer used
for concrete evaluations; comma (44) ends a field, newline (10) ends a
record, empty lines are skipped. -/
def tokStep (st : TokState) (b : Byte) : TokState × List Ev :=
  if b = 44 then ({ pending := [], rowStarted := true }, [Ev.field st.pending])
  else if b = 10 then
    if st.rowStarted || !st.pending.isEmpty then
      ({ pending := [], rowStarted := false }, [Ev.field st.pending, Ev.record])
    else ({ pending := [], rowStarted := false }, [])
  else ({ pending := st.pending ++ [b], rowStarted := st.rowStarted }, [])

/-- Finalization of the sample tokenizer: flush an unterminated final
record, as csv_fini does. -/
def tokFin (st : TokState) : TokState × List Ev :=
  if st.rowStarted || !st.pending.isEmpty then
    ({ pending := [], rowStarted := false }, [Ev.field st.pending, Ev.record])
  else (st, [])

/-- The concrete sample tokenizer instance. -/
def specTok : Tokenizer TokState := { step := tokStep, fin := tokFin }

/-- The potential function witnessing that specTok satisfies the two-byte
contract. -/
def specPot (st : TokState) : Nat :=
  min 1 (st.pending.length + (if st.rowStarted then 1 else 0))

/-- The initial tokenizer state. -/
def tokStart : TokState := { pending := [], rowStarted := false }

/-- A sample session holding the fed, not yet consumed bytes of one line
with the single one-byte field 97. -/
def sampleFed : SessionState TokState :=
  { parser := tokStart,
    row_buffer := { cells := [], cols_used := 0 },
    csv_buffer := { data := some [97, 10], consumed := 0 },
    capture := none }

/-- A sample session whose fed buffer has been fully consumed. -/
def sampleDrained : SessionState TokState :=
  { parser := tokStart,
    row_buffer := { cells := [], cols_used := 0 },
    csv_buffer := { data := some [97, 10], consumed := 2 },
    capture := none }

/-! List access helpers used throughout. -/

theorem getD_set_self {α : Type} (l : List α) (i : Nat) (a d : α) (h : i < l.length) :
    (l.set i a).getD i d = a := by
  induction l generalizing i with
  | nil => simp at h
  | cons x xs ih =>
    cases i with
    | zero => simp
    | succ n => simpa using ih n (by simpa using h)

theorem getD_set_ne {α : Type} (l : List α) (i j : Nat) (a d : α) (h : i ≠ j) :
    (l.set i a).getD j d = l.getD j d := by
  induction l generalizing i j with
  | nil => simp
  | cons x xs ih =>
    cases i with
    | zero =>
      cases j with
      | zero => exact absurd rfl h
      | succ m => simp
    | succ n =>
      cases j with
      | zero => simp
      | succ m => simpa using ih n m (by omega)

theorem getD_replicate {α : Type} (k i : Nat) (d : α) :
    (List.replicate k d).getD i d = d := by
  induction k generalizing i with
  | zero => simp
  | succ n ih =>
    cases i with
    | zero => simp [List.replicate]
    | succ m =>
      rw [List.replicate, List.getD_cons_succ]
      exact ih m

theorem getD_append_replicate {α : Type} (l : List α) (k i : Nat) (d : α) :
    (l ++ List.replicate k d).getD i d = l.getD i d := by
  induction l generalizing i with
  | nil => simp [getD_replicate]
  | cons x xs ih =>
    cases i with
    | zero => simp
    | succ m => simpa using ih m

theorem map_getD_range {α : Type} (l : List α) (d : α) :
    (List.range l.length).map (fun i => l.getD i d) = l := by
  induction l with
  | nil => simp
  | cons x xs ih =>
    rw [List.length_cons, List.range_succ_eq_map, List.map_cons, List.map_map]
    have h1 : ((fun i => (x :: xs).getD i d) ∘ Nat.succ) = fun i => xs.getD i d := by
      funext i
      simp
    rw [h1, ih, List.getD_cons_zero]

theorem take_min_length {α : Type} (l : List α) (m : Nat) :
    l.take (min l.length m) = l.take m := by
  rcases Nat.le_total l.length m with h | h
  · rw [Nat.min_eq_left h, List.take_length, List.take_of_length_le h]
  · rw [Nat.min_eq_right h]

theorem drop_min_length {α : Type} (l : List α) (m : Nat) :
    l.drop (min l.length m) = l.drop m := by
  rcases Nat.le_total l.length m with h | h
  · rw [Nat.min_eq_left h, List.drop_length, List.drop_eq_nil_of_le h]
  · rw [Nat.min_eq_right h]

/-! Cell growth: the align_cell_size policy and ensure_cell_size. -/

theorem align_le (s : Nat) : s ≤ align_cell_size s := by
  unfold align_cell_size
  omega

theorem align_least (s m : Nat) (hm : m % 16 = 0) (h : s ≤ m) : align_cell_size s ≤ m := by
  unfold align_cell_size
  omega

theorem ensure_cell_size_inv (c : Cell) (s : Nat) (hinv : CellInv c) :
    CellInv (ensure_cell_size c s) := by
  unfold ensure_cell_size
  split
  · intro h
    simp at h
  · exact hinv

theorem ensure_cell_size_mono (c : Cell) (s : Nat) (hinv : CellInv c) :
    c.allocatedSize ≤ (ensure_cell_size c s).allocatedSize := by
  unfold ensure_cell_size
  split
  · rename_i h
    rcases h with h | h
    · simp [hinv h]
    · exact le_trans (le_of_lt h) (align_le s)
  · exact le_refl _

theorem foldl_ensure_cell_size_mono :
    ∀ (writes : List Nat) (c : Cell), CellInv c →
      c.allocatedSize ≤ (writes.foldl ensure_cell_size c).allocatedSize := by
  intro writes
  induction writes with
  | nil => intro c _; exact le_refl _
  | cons w ws ih =>
    intro c hinv
    exact le_trans (ensure_cell_size_mono c w hinv)
      (ih (ensure_cell_size c w) (ensure_cell_size_inv c w hinv))

/-- Claim C6: a write of s bytes into a cell reallocates the backing buffer
to exactly the smallest multiple of 16 that is at least s when s exceeds
the current capacity, leaves the capacity unchanged when s fits, and so
the capacity never decreases across any sequence of writes. The invariant
CellInv holds for every cell the program ever constructs (empty_cell
starts with both fields cleared and ensure_cell_size sets both together). -/
theorem cell_growth_spec (c : Cell) (s : Nat) (hinv : CellInv c) :
    align_cell_size s % 16 = 0 ∧
    s ≤ align_cell_size s ∧
    (∀ m, m % 16 = 0 → s ≤ m → align_cell_size s ≤ m) ∧
    (c.allocatedSize < s → (ensure_cell_size c s).allocatedSize = align_cell_size s) ∧
    (s ≤ c.allocatedSize → (ensure_cell_size c s).allocatedSize = c.allocatedSize) ∧
    c.allocatedSize ≤ (ensure_cell_size c s).allocatedSize ∧
    CellInv (ensure_cell_size c s) ∧
    (∀ writes : List Nat, c.allocatedSize ≤ (writes.foldl ensure_cell_size c).allocatedSize) := by
  refine ⟨Nat.mul_mod_left _ _, align_le s, fun m hm h => align_least s m hm h, ?_, ?_,
    ensure_cell_size_mono c s hinv, ensure_cell_size_inv c s hinv,
    fun writes => foldl_ensure_cell_size_mono writes c hinv⟩
  · intro h
    unfold ensure_cell_size
    rw [if_pos (Or.inr h)]
  · intro h
    unfold ensure_cell_size
    split
    · rename_i hcond
      rcases hcond with hnull | hlt
      · have h0 : c.allocatedSize = 0 := hinv hnull
        show align_cell_size s = c.allocatedSize
        unfold align_cell_size
        omega
      · omega
    · rfl

/-- Witness for cell_growth_spec at the freshly initialized cell and a
5-byte write: the capacity grows from 0 to 16. -/
theorem cell_growth_spec_witness :
    align_cell_size 5 % 16 = 0 ∧
    5 ≤ align_cell_size 5 ∧
    (∀ m, m % 16 = 0 → 5 ≤ m → align_cell_size 5 ≤ m) ∧
    (empty_cell.allocatedSize < 5 →
      (ensure_cell_size empty_cell 5).allocatedSize = align_cell_size 5) ∧
    (5 ≤ empty_cell.allocatedSize →
      (ensure_cell_size empty_cell 5).allocatedSize = empty_cell.allocatedSize) ∧
    empty_cell.allocatedSize ≤ (ensure_cell_size empty_cell 5).allocatedSize ∧
    CellInv (ensure_cell_size empty_cell 5) ∧
    (∀ writes : List Nat,
      empty_cell.allocatedSize ≤ (writes.foldl ensure_cell_size empty_cell).allocatedSize) :=
  cell_growth_spec empty_cell 5 (fun _ => rfl)

/-! The feed discipline. -/

theorem is_csv_buffer_empty_false_iff (b : CsvBuffer) :
    is_csv_buffer_empty b = false ↔
      b.data ≠ none ∧ b.size ≠ 0 ∧ b.consumed < b.size := by
  simp only [is_csv_buffer_empty, Bool.or_eq_false_iff, Option.isNone_eq_false_iff,
    Option.isSome_iff_ne_none, beq_eq_false_iff_ne, ne_eq, decide_eq_false_iff_not,
    Nat.not_le]
  tauto

theorem is_csv_buffer_empty_true_iff (b : CsvBuffer) :
    is_csv_buffer_empty b = true ↔
      b.data = none ∨ b.size = 0 ∨ b.size ≤ b.consumed := by
  simp only [is_csv_buffer_empty, Bool.or_eq_true, Option.isNone_iff_eq_none, beq_iff_eq,
    decide_eq_true_eq]
  tauto

/-- Claim C2: feeding while the current buffer is non-empty and not fully
consumed fails with the buffer-not-empty error and leaves the session
(including the buffer) unchanged; feeding a drained or initially empty
buffer succeeds, installs a copy of the new bytes and resets consumed
to 0. -/
theorem feed_spec (s : SessionState σ) (bytes : List Byte) :
    (s.csv_buffer.data ≠ none ∧ s.csv_buffer.size ≠ 0 ∧
        s.csv_buffer.consumed < s.csv_buffer.size →
      feed s bytes = (FeedResult.bufferNotEmpty, s)) ∧
    (s.csv_buffer.size ≤ s.csv_buffer.consumed ∨ s.csv_buffer.data = none ∨
        s.csv_buffer.size = 0 →
      feed s bytes =
        (FeedResult.ok, { s with csv_buffer := { data := some bytes, consumed := 0 } })) := by
  constructor
  · intro h
    have hb : is_csv_buffer_empty s.csv_buffer = false :=
      (is_csv_buffer_empty_false_iff s.csv_buffer).2 h
    simp [feed, hb]
  · intro h
    have hb : is_csv_buffer_empty s.csv_buffer = true :=
      (is_csv_buffer_empty_true_iff s.csv_buffer).2 (by tauto)
    simp [feed, hb]

/-- Witness for feed_spec: a second feed into the undrained sample buffer
is rejected with the session unchanged, while feeding the drained sample
session installs the new bytes with consumed reset to 0. -/
theorem feed_spec_witness :
    feed sampleFed [98, 10] = (FeedResult.bufferNotEmpty, sampleFed) ∧
    feed sampleDrained [98, 10] =
      (FeedResult.ok,
        { sampleDrained with csv_buffer := { data := some [98, 10], consumed := 0 } }) :=
  ⟨(feed_spec sampleFed [98, 10]).1 (by decide),
   (feed_spec sampleDrained [98, 10]).2 (by decide)⟩

/-! Setting the capture spec. -/

/-- Claim C8: set_capture with a proper list whose elements all decode as
non-negative integers succeeds and fully replaces the active capture list;
with a non-list argument or a list containing a non-integer element it
returns bad-argument and leaves the session, in particular the previously
active capture spec, unchanged. -/
theorem set_capture_spec (s : SessionState σ) (arg : CaptureArg) :
    (∀ items ns, arg = CaptureArg.list items → items.mapM enif_get_uint = some ns →
      set_capture s arg = (SetCaptureResult.ok, { s with capture := some ns })) ∧
    (arg = CaptureArg.nonlist → set_capture s arg = (SetCaptureResult.badarg, s)) ∧
    (∀ items, arg = CaptureArg.list items → items.mapM enif_get_uint = none →
      set_capture s arg = (SetCaptureResult.badarg, s)) := by
  refine ⟨?_, ?_, ?_⟩
  · intro items ns harg hdec
    subst harg
    simp only [set_capture, update_capture, extract_capture_list, hdec]
  · intro harg
    subst harg
    rfl
  · intro items harg hdec
    subst harg
    simp only [set_capture, update_capture, extract_capture_list, hdec]

/-- Witness for set_capture_spec: a well-formed list of two indices is
accepted and installed; a non-list argument and a list with a non-integer
element are both rejected, leaving the session unchanged. -/
theorem set_capture_spec_witness :
    set_capture sampleFed (CaptureArg.list [Term.nat 2, Term.nat 0]) =
      (SetCaptureResult.ok, { sampleFed with capture := some [2, 0] }) ∧
    set_capture sampleFed CaptureArg.nonlist = (SetCaptureResult.badarg, sampleFed) ∧
    set_capture sampleFed (CaptureArg.list [Term.nat 1, Term.other]) =
      (SetCaptureResult.badarg, sampleFed) :=
  ⟨(set_capture_spec sampleFed (CaptureArg.list [Term.nat 2, Term.nat 0])).1
      [Term.nat 2, Term.nat 0] [2, 0] rfl (by decide),
   (set_capture_spec sampleFed CaptureArg.nonlist).2.1 rfl,
   (set_capture_spec sampleFed (CaptureArg.list [Term.nat 1, Term.other])).2.2
      [Term.nat 1, Term.other] rfl (by decide)⟩

/-! Row buffer growth and the field callback. -/

theorem ensure_space_cols_used (rb : RowBuffer) :
    (ensure_row_buffer_space rb).cols_used = rb.cols_used := by
  unfold ensure_row_buffer_space
  split <;> rfl

theorem ensure_space_lt (rb : RowBuffer) (hwf : rb.cols_used ≤ rb.cells.length) :
    rb.cols_used < (ensure_row_buffer_space rb).cells.length := by
  unfold ensure_row_buffer_space
  split
  · rename_i h
    simp only [List.length_append, List.length_replicate]
    omega
  · rename_i h
    omega

theorem ensure_space_getD (rb : RowBuffer) (i : Nat) :
    (ensure_row_buffer_space rb).cells.getD i empty_cell = rb.cells.getD i empty_cell := by
  unfold ensure_row_buffer_space
  split
  · exact getD_append_replicate rb.cells 5 i empty_cell
  · rfl

theorem add_cell_cols_used (bytes : List Byte) (capture : Option (List Nat)) (rb : RowBuffer) :
    (add_cell bytes capture rb).cols_used = rb.cols_used + 1 := by
  simp only [add_cell]
  split <;> simp [ensure_space_cols_used]

theorem add_cell_wf (bytes : List Byte) (capture : Option (List Nat)) (rb : RowBuffer)
    (hwf : rb.cols_used ≤ rb.cells.length) :
    (add_cell bytes capture rb).cols_used ≤ (add_cell bytes capture rb).cells.length := by
  have hlt := ensure_space_lt rb hwf
  have hcu := ensure_space_cols_used rb
  simp only [add_cell]
  split
  · simp only [List.length_set]
    omega
  · omega

theorem add_cell_getD_ne (bytes : List Byte) (capture : Option (List Nat)) (rb : RowBuffer)
    (i : Nat) (h : i ≠ rb.cols_used) :
    (add_cell bytes capture rb).cells.getD i empty_cell = rb.cells.getD i empty_cell := by
  have hcu := ensure_space_cols_used rb
  have hg := ensure_space_getD rb i
  simp only [add_cell]
  split
  · exact (getD_set_ne _ _ _ _ _ (by omega)).trans hg
  · exact hg

theorem add_cell_getD_write (bytes : List Byte) (capture : Option (List Nat)) (rb : RowBuffer)
    (hwf : rb.cols_used ≤ rb.cells.length)
    (hcap : is_output_column capture rb.cols_used = true) :
    ((add_cell bytes capture rb).cells.getD rb.cols_used empty_cell).content = bytes := by
  have hlt := ensure_space_lt rb hwf
  have hcu := ensure_space_cols_used rb
  simp only [add_cell, hcu, hcap, if_true]
  rw [getD_set_self _ _ _ _ hlt]
  rfl

theorem add_cell_not_captured (bytes : List Byte) (capture : Option (List Nat)) (rb : RowBuffer)
    (hcap : is_output_column capture rb.cols_used = false) (i : Nat) :
    (add_cell bytes capture rb).cells.getD i empty_cell = rb.cells.getD i empty_cell := by
  have hcu := ensure_space_cols_used rb
  simp only [add_cell, hcu, hcap, Bool.false_eq_true, if_false]
  exact ensure_space_getD rb i

/-- Claim C10: while a capture spec is set, a field callback copies the
field's bytes into the cell at the current column exactly when that column
index appears in the capture list, advances cols_used by exactly one in
either case, and leaves every cell untouched (so stale bytes from earlier
rows survive) when the column is not captured. -/
theorem add_cell_capture_spec (bytes : List Byte) (idxs : List Nat) (rb : RowBuffer)
    (hwf : rb.cols_used ≤ rb.cells.length) :
    (add_cell bytes (some idxs) rb).cols_used = rb.cols_used + 1 ∧
    (rb.cols_used ∈ idxs →
      ((add_cell bytes (some idxs) rb).cells.getD rb.cols_used empty_cell).content = bytes) ∧
    (rb.cols_used ∉ idxs → ∀ i,
      (add_cell bytes (some idxs) rb).cells.getD i empty_cell =
        rb.cells.getD i empty_cell) := by
  refine ⟨add_cell_cols_used bytes (some idxs) rb, ?_, ?_⟩
  · intro hmem
    exact add_cell_getD_write bytes (some idxs) rb hwf (by simp [is_output_column, hmem])
  · intro hmem i
    exact add_cell_not_captured bytes (some idxs) rb (by simp [is_output_column, hmem]) i

/-- Witness for add_cell_capture_spec: with capture list containing index
0, a field arriving at column 0 of a fresh row buffer is stored and the
column counter advances to 1. -/
theorem add_cell_capture_spec_witness :
    ((add_cell [99] (some [0, 2]) { cells := [], cols_used := 0 }).cols_used = 0 + 1 ∧
      ((0 : Nat) ∈ [0, 2] →
        ((add_cell [99] (some [0, 2]) { cells := [], cols_used := 0 }).cells.getD 0
            empty_cell).content = [99]) ∧
      ((0 : Nat) ∉ [0, 2] → ∀ i,
        (add_cell [99] (some [0, 2]) { cells := [], cols_used := 0 }).cells.getD i empty_cell =
          (({ cells := [], cols_used := 0 } : RowBuffer)).cells.getD i empty_cell)) ∧
    ((add_cell [99] (some [0, 2]) { cells := [], cols_used := 0 }).cells.getD 0
        empty_cell).content = [99] :=
  ⟨add_cell_capture_spec [99] [0, 2] { cells := [], cols_used := 0 } (by decide), by decide⟩

/-! Assembling a whole row out of field callbacks. -/

theorem add_cells_cols_used (capture : Option (List Nat)) :
    ∀ (fields : List (List Byte)) (rb : RowBuffer),
      (add_cells capture rb fields).cols_used = rb.cols_used + fields.length := by
  intro fields
  induction fields with
  | nil => intro rb; simp [add_cells]
  | cons f fs ih =>
    intro rb
    have hstep : add_cells capture rb (f :: fs) =
        add_cells capture (add_cell f capture rb) fs := rfl
    rw [hstep, ih, add_cell_cols_used]
    simp only [List.length_cons]
    omega

theorem add_cells_wf (capture : Option (List Nat)) :
    ∀ (fields : List (List Byte)) (rb : RowBuffer), rb.cols_used ≤ rb.cells.length →
      (add_cells capture rb fields).cols_used ≤ (add_cells capture rb fields).cells.length := by
  intro fields
  induction fields with
  | nil => intro rb h; exact h
  | cons f fs ih =>
    intro rb h
    have hstep : add_cells capture rb (f :: fs) =
        add_cells capture (add_cell f capture rb) fs := rfl
    rw [hstep]
    exact ih (add_cell f capture rb) (add_cell_wf f capture rb h)

theorem add_cells_getD_lt (capture : Option (List Nat)) :
    ∀ (fields : List (List Byte)) (rb : RowBuffer) (i : Nat), i < rb.cols_used →
      (add_cells capture rb fields).cells.getD i empty_cell =
        rb.cells.getD i empty_cell := by
  intro fields
  induction fields with
  | nil => intro rb i _; rfl
  | cons f fs ih =>
    intro rb i hi
    have hstep : add_cells capture rb (f :: fs) =
        add_cells capture (add_cell f capture rb) fs := rfl
    rw [hstep]
    have h1 : i < (add_cell f capture rb).cols_used := by
      rw [add_cell_cols_used]; omega
    rw [ih (add_cell f capture rb) i h1]
    exact add_cell_getD_ne f capture rb i (by omega)

theorem add_cells_written (capture : Option (List Nat)) :
    ∀ (fields : List (List Byte)) (rb : RowBuffer) (j : Nat),
      rb.cols_used ≤ rb.cells.length → j < fields.length →
      is_output_column capture (rb.cols_used + j) = true →
      ((add_cells capture rb fields).cells.getD (rb.cols_used + j) empty_cell).content =
        fields.getD j [] := by
  intro fields
  induction fields with
  | nil => intro rb j _ hj _; simp at hj
  | cons f fs ih =>
    intro rb j hwf hj hcap
    have hstep : add_cells capture rb (f :: fs) =
        add_cells capture (add_cell f capture rb) fs := rfl
    rw [hstep]
    cases j with
    | zero =>
      have hcap0 : is_output_column capture rb.cols_used = true := by
        simpa using hcap
      have hpres := add_cells_getD_lt capture fs (add_cell f capture rb) rb.cols_used
        (by rw [add_cell_cols_used]; omega)
      simp only [Nat.add_zero, List.getD_cons_zero]
      rw [hpres]
      exact add_cell_getD_write f capture rb hwf hcap0
    | succ m =>
      have hidx : rb.cols_used + (m + 1) = (add_cell f capture rb).cols_used + m := by
        rw [add_cell_cols_used]; omega
      rw [hidx, List.getD_cons_succ]
      exact ih (add_cell f capture rb) m (add_cell_wf f capture rb hwf)
        (by simpa using hj) (by rw [← hidx]; exact hcap)

/-! Projection of a completed row. -/

/-- Claim C3: with a capture spec set, a completed row of given field
values projects to exactly one output value per requested index, in list
order: the field at that column when the index is below the row's
cols_used (which equals the number of fields) and a zero-length value
otherwise; the output length is exactly the capture list's length. -/
theorem capture_projection_spec (idxs : List Nat) (fields : List (List Byte)) (rb : RowBuffer)
    (hwf : rb.cols_used ≤ rb.cells.length) (h0 : rb.cols_used = 0) :
    make_output_terms (some idxs) (add_cells (some idxs) rb fields) =
      idxs.map (fun i => if i < fields.length then fields.getD i [] else []) ∧
    (make_output_terms (some idxs) (add_cells (some idxs) rb fields)).length = idxs.length := by
  have hcu : (add_cells (some idxs) rb fields).cols_used = fields.length := by
    rw [add_cells_cols_used, h0, Nat.zero_add]
  constructor
  · simp only [make_output_terms]
    apply List.map_congr_left
    intro i hi
    rw [hcu]
    by_cases hlt : i < fields.length
    · rw [if_pos hlt, if_pos hlt]
      have hw := add_cells_written (some idxs) fields rb i hwf hlt
        (by rw [h0, Nat.zero_add]; simp [is_output_column, hi])
      rw [h0, Nat.zero_add] at hw
      exact hw
    · rw [if_neg hlt, if_neg hlt]
  · simp [make_output_terms]

/-- Witness for capture_projection_spec, the spec's own example: capture
indices 2, 0, 5 on a 4-column row with fields 97, 98, 99, 100 yield the
third column, the first column, and one empty value. -/
theorem capture_projection_spec_witness :
    (make_output_terms (some [2, 0, 5])
        (add_cells (some [2, 0, 5]) { cells := [], cols_used := 0 }
          [[97], [98], [99], [100]]) =
      [2, 0, 5].map
        (fun i => if i < ([[97], [98], [99], [100]] : List (List Byte)).length then
          ([[97], [98], [99], [100]] : List (List Byte)).getD i [] else [])) ∧
    make_output_terms (some [2, 0, 5])
        (add_cells (some [2, 0, 5]) { cells := [], cols_used := 0 }
          [[97], [98], [99], [100]]) = [[99], [97], []] :=
  ⟨(capture_projection_spec [2, 0, 5] [[97], [98], [99], [100]]
      { cells := [], cols_used := 0 } (by decide) rfl).1, by decide⟩

/-- Claim C9: with no capture spec set, a completed row projects to exactly
its field values in original column order, for any row shape, and the
output length equals cols_used. -/
theorem no_capture_identity (fields : List (List Byte)) (rb : RowBuffer)
    (hwf : rb.cols_used ≤ rb.cells.length) (h0 : rb.cols_used = 0) :
    make_output_terms none (add_cells none rb fields) = fields ∧
    (make_output_terms none (add_cells none rb fields)).length =
      (add_cells none rb fields).cols_used := by
  have hcu : (add_cells none rb fields).cols_used = fields.length := by
    rw [add_cells_cols_used, h0, Nat.zero_add]
  constructor
  · simp only [make_output_terms]
    rw [hcu]
    have hcells : ∀ i ∈ List.range fields.length,
        ((add_cells none rb fields).cells.getD i empty_cell).content = fields.getD i [] := by
      intro i hi
      rw [List.mem_range] at hi
      have hw := add_cells_written none fields rb i hwf hi rfl
      rw [h0, Nat.zero_add] at hw
      exact hw
    rw [List.map_congr_left hcells]
    exact map_getD_range fields []
  · simp [make_output_terms, hcu]

/-- Witness for no_capture_identity on a two-column row. -/
theorem no_capture_identity_witness :
    (make_output_terms none
        (add_cells none { cells := [], cols_used := 0 } [[104], [105, 105]]) =
      [[104], [105, 105]]) ∧
    (make_output_terms none
        (add_cells none { cells := [], cols_used := 0 } [[104], [105, 105]])).length =
      (add_cells none { cells := [], cols_used := 0 } [[104], [105, 105]]).cols_used :=
  no_capture_identity [[104], [105, 105]] { cells := [], cols_used := 0 } (by decide) rfl

/-! Callback processing: the output batch only accumulates, one row per
record event. -/

theorem processEvents_acc (capture : Option (List Nat)) :
    ∀ (evs : List Ev) (rb : RowBuffer) (rows : List OutRow),
      processEvents capture rb rows evs =
        ((processEvents capture rb [] evs).1,
         rows ++ (processEvents capture rb [] evs).2) := by
  intro evs
  induction evs with
  | nil => intro rb rows; simp [processEvents]
  | cons ev evs ih =>
    intro rb rows
    cases ev with
    | field bs =>
      have h1 : processEvents capture rb rows (Ev.field bs :: evs) =
          processEvents capture (add_cell bs capture rb) rows evs := rfl
      have h2 : processEvents capture rb [] (Ev.field bs :: evs) =
          processEvents capture (add_cell bs capture rb) [] evs := rfl
      rw [h1, h2, ih]
    | record =>
      have h1 : processEvents capture rb rows (Ev.record :: evs) =
          processEvents capture { rb with cols_used := 0 }
            (rows ++ [make_output_terms capture rb]) evs := rfl
      have h2 : processEvents capture rb [] (Ev.record :: evs) =
          processEvents capture { rb with cols_used := 0 }
            ([] ++ [make_output_terms capture rb]) evs := rfl
      rw [h1, h2, ih { rb with cols_used := 0 } (rows ++ [make_output_terms capture rb]),
        ih { rb with cols_used := 0 } ([] ++ [make_output_terms capture rb])]
      simp

theorem processEvents_length (capture : Option (List Nat)) :
    ∀ (evs : List Ev) (rb : RowBuffer) (rows : List OutRow),
      (processEvents capture rb rows evs).2.length = rows.length + recordCount evs := by
  intro evs
  induction evs with
  | nil => intro rb rows; simp [processEvents, recordCount]
  | cons ev evs ih =>
    intro rb rows
    cases ev with
    | field bs =>
      have h1 : processEvents capture rb rows (Ev.field bs :: evs) =
          processEvents capture (add_cell bs capture rb) rows evs := rfl
      rw [h1, ih]
      rfl
    | record =>
      have h1 : processEvents capture rb rows (Ev.record :: evs) =
          processEvents capture { rb with cols_used := 0 }
            (rows ++ [make_output_terms capture rb]) evs := rfl
      rw [h1, ih]
      simp [recordCount]
      omega

theorem stepByte_acc (T : Tokenizer σ) (capture : Option (List Nat)) (p : σ)
    (rb : RowBuffer) (rows : List OutRow) (b : Byte) :
    stepByte T capture (p, rb, rows) b =
      ((stepByte T capture (p, rb, []) b).1,
       (stepByte T capture (p, rb, []) b).2.1,
       rows ++ (stepByte T capture (p, rb, []) b).2.2) := by
  simp only [stepByte]
  rw [processEvents_acc capture (T.step p b).2 rb rows]

theorem runBytes_cons (T : Tokenizer σ) (capture : Option (List Nat))
    (x : σ × RowBuffer × List OutRow) (b : Byte) (l : List Byte) :
    runBytes T capture x (b :: l) = runBytes T capture (stepByte T capture x b) l := rfl

theorem runBytes_append (T : Tokenizer σ) (capture : Option (List Nat))
    (x : σ × RowBuffer × List OutRow) (l1 l2 : List Byte) :
    runBytes T capture x (l1 ++ l2) = runBytes T capture (runBytes T capture x l1) l2 :=
  List.foldl_append _ _ _ _

theorem runBytes_acc (T : Tokenizer σ) (capture : Option (List Nat)) :
    ∀ (l : List Byte) (p : σ) (rb : RowBuffer) (rows : List OutRow),
      runBytes T capture (p, rb, rows) l =
        ((runBytes T capture (p, rb, []) l).1,
         (runBytes T capture (p, rb, []) l).2.1,
         rows ++ (runBytes T capture (p, rb, []) l).2.2) := by
  intro l
  induction l with
  | nil => intro p rb rows; simp [runBytes]
  | cons b l ih =>
    intro p rb rows
    rcases hz : stepByte T capture (p, rb, []) b with ⟨q, rbq, r1⟩
    have hz2 : stepByte T capture (p, rb, rows) b = (q, rbq, rows ++ r1) := by
      rw [stepByte_acc, hz]
    rw [runBytes_cons, runBytes_cons, hz, hz2, ih q rbq (rows ++ r1), ih q rbq r1]
    simp

/-- Modelled from the spec: under the two-byte-per-record contract, a run
over n bytes completes at most (pot + n) / 2 records. -/
theorem runBytes_record_bound (T : Tokenizer σ) (capture : Option (List Nat))
    (pot : σ → Nat) (hc : TwoByteContract T pot) :
    ∀ (l : List Byte) (p : σ) (rb : RowBuffer),
      2 * (runBytes T capture (p, rb, []) l).2.2.length +
        pot (runBytes T capture (p, rb, []) l).1 ≤ pot p + l.length := by
  intro l
  induction l with
  | nil => intro p rb; simp [runBytes]
  | cons b l ih =>
    intro p rb
    rcases hz : stepByte T capture (p, rb, []) b with ⟨q, rbq, r1⟩
    have hq : q = (T.step p b).1 := by
      have h0 : (stepByte T capture (p, rb, []) b).1 = (T.step p b).1 := rfl
      rw [hz] at h0
      simpa using h0
    have hlen : r1.length = recordCount (T.step p b).2 := by
      have h3 : (stepByte T capture (p, rb, []) b).2.2 =
          (processEvents capture rb [] (T.step p b).2).2 := rfl
      rw [hz] at h3
      simp only at h3
      rw [h3, processEvents_length]
      simp
    have hstep : 2 * r1.length + pot q ≤ pot p + 1 := by
      rw [hlen, hq]
      exact hc.step_bound p b
    have ihq := ih q rbq
    rw [runBytes_cons, hz, runBytes_acc T capture l q rbq r1]
    simp only [List.length_append, List.length_cons]
    omega

/-! The input buffer: remaining bytes, emptiness, chunk extraction. -/

theorem remaining_nil_iff (b : CsvBuffer) :
    remaining b = [] ↔ is_csv_buffer_empty b = true := by
  rw [is_csv_buffer_empty_true_iff]
  cases hd : b.data with
  | none => simp [remaining, hd]
  | some d =>
    simp only [remaining, CsvBuffer.size, hd, Option.getD_some]
    rw [List.drop_eq_nil_iff]
    constructor
    · intro h1
      exact Or.inr (Or.inr h1)
    · intro h1
      rcases h1 with h1 | h1 | h1
      · exact absurd h1 (by simp)
      · omega
      · exact h1

theorem remaining_length (b : CsvBuffer) (h : is_csv_buffer_empty b = false) :
    (remaining b).length = b.size - b.consumed := by
  rw [is_csv_buffer_empty_false_iff] at h
  obtain ⟨hd, hs, hc⟩ := h
  cases hdata : b.data with
  | none => exact absurd hdata hd
  | some d => simp [remaining, CsvBuffer.size, hdata]

theorem remaining_add (b : CsvBuffer) (k : Nat) :
    remaining { b with consumed := b.consumed + k } = (remaining b).drop k := by
  simp only [remaining]
  rw [List.drop_drop]

theorem get_csv_chunk_empty (b : CsvBuffer) (m : Nat) (h : is_csv_buffer_empty b = true) :
    get_csv_chunk b m = ([], b) := by
  simp [get_csv_chunk, h]

theorem get_csv_chunk_spec (b : CsvBuffer) (m : Nat) (h : is_csv_buffer_empty b = false) :
    (get_csv_chunk b m).1 = (remaining b).take m ∧
    remaining (get_csv_chunk b m).2 = (remaining b).drop m := by
  have hlen := remaining_length b h
  simp only [get_csv_chunk, h, Bool.false_eq_true, if_false]
  constructor
  · show (remaining b).take (min (b.size - b.consumed) m) = (remaining b).take m
    rw [← hlen, take_min_length]
  · rw [remaining_add]
    rw [← hlen, drop_min_length]

/-! The parse driving call. -/

theorem parse_eob (T : Tokenizer σ) (s : SessionState σ) (h : remaining s.csv_buffer = []) :
    parse T s = (ParseResult.eob, s) := by
  have hb : is_csv_buffer_empty s.csv_buffer = true := (remaining_nil_iff s.csv_buffer).1 h
  have hc := get_csv_chunk_empty s.csv_buffer MAX_PARSE_SIZE hb
  simp [parse, hc]

theorem parse_run (T : Tokenizer σ) (s : SessionState σ) (h : remaining s.csv_buffer ≠ [])
    (q : σ) (rbq : RowBuffer) (rows : List OutRow)
    (hX : runBytes T s.capture (s.parser, s.row_buffer, [])
        ((remaining s.csv_buffer).take MAX_PARSE_SIZE) = (q, rbq, rows)) :
    parse T s = (ParseResult.ok rows,
      { parser := q, row_buffer := rbq,
        csv_buffer := (get_csv_chunk s.csv_buffer MAX_PARSE_SIZE).2,
        capture := s.capture }) := by
  have hb : is_csv_buffer_empty s.csv_buffer = false := by
    cases hbe : is_csv_buffer_empty s.csv_buffer
    · rfl
    · exact absurd ((remaining_nil_iff s.csv_buffer).2 hbe) h
  obtain ⟨h1, h2⟩ := get_csv_chunk_spec s.csv_buffer MAX_PARSE_SIZE hb
  have hlen : ¬ (get_csv_chunk s.csv_buffer MAX_PARSE_SIZE).1.length = 0 := by
    rw [h1]
    have h3 : (remaining s.csv_buffer).length ≠ 0 := by
      intro h4
      exact h (List.length_eq_zero.1 h4)
    have h5 : MAX_PARSE_SIZE = 128 := rfl
    simp only [List.length_take]
    omega
  simp only [parse]
  rw [if_neg hlen, h1, hX]

theorem driveParse_spec (T : Tokenizer σ) :
    ∀ (fuel : Nat) (s : SessionState σ), (remaining s.csv_buffer).length < fuel →
      driveParse T fuel s =
        (runBytes T s.capture (s.parser, s.row_buffer, []) (remaining s.csv_buffer)).2.2 := by
  intro fuel
  induction fuel with
  | zero => intro s h; omega
  | succ fuel ih =>
    intro s h
    by_cases hr : remaining s.csv_buffer = []
    · rw [show driveParse T (fuel + 1) s =
          (match parse T s with
           | (ParseResult.ok rows, s1) => rows ++ driveParse T fuel s1
           | (ParseResult.eob, _) => []) from rfl,
        parse_eob T s hr, hr]
      rfl
    · rcases hX : runBytes T s.capture (s.parser, s.row_buffer, [])
          ((remaining s.csv_buffer).take MAX_PARSE_SIZE) with ⟨q, rbq, rows⟩
      have hp := parse_run T s hr q rbq rows hX
      rw [show driveParse T (fuel + 1) s =
          (match parse T s with
           | (ParseResult.ok rows, s1) => rows ++ driveParse T fuel s1
           | (ParseResult.eob, _) => []) from rfl,
        hp]
      show rows ++ driveParse T fuel
          { parser := q, row_buffer := rbq,
            csv_buffer := (get_csv_chunk s.csv_buffer MAX_PARSE_SIZE).2,
            capture := s.capture } = _
      have hb : is_csv_buffer_empty s.csv_buffer = false := by
        cases hbe : is_csv_buffer_empty s.csv_buffer
        · rfl
        · exact absurd ((remaining_nil_iff s.csv_buffer).2 hbe) hr
      have hrem1 : remaining (get_csv_chunk s.csv_buffer MAX_PARSE_SIZE).2 =
          (remaining s.csv_buffer).drop MAX_PARSE_SIZE :=
        (get_csv_chunk_spec s.csv_buffer MAX_PARSE_SIZE hb).2
      have hlen0 : (remaining s.csv_buffer).length ≠ 0 := by
        intro h4
        exact hr (List.length_eq_zero.1 h4)
      have hflen : (remaining (get_csv_chunk s.csv_buffer MAX_PARSE_SIZE).2).length < fuel := by
        rw [hrem1]
        have hm : MAX_PARSE_SIZE = 128 := rfl
        simp only [List.length_drop]
        omega
      rw [ih _ hflen]
      show rows ++ (runBytes T s.capture (q, rbq, [])
          (remaining (get_csv_chunk s.csv_buffer MAX_PARSE_SIZE).2)).2.2 = _
      rw [hrem1]
      conv_rhs => rw [← List.take_append_drop MAX_PARSE_SIZE (remaining s.csv_buffer)]
      rw [runBytes_append, hX,
        runBytes_acc T s.capture ((remaining s.csv_buffer).drop MAX_PARSE_SIZE) q rbq rows]

/-! The parse_one_row driving call. -/

theorem p1Go_eob (T : Tokenizer σ) (capture : Option (List Nat)) :
    ∀ (l : List Byte) (p : σ) (rb : RowBuffer) (rows : List OutRow)
      (p1 : σ) (rb1 : RowBuffer) (k : Nat),
      p1Go T capture p rb rows l = (none, p1, rb1, k) →
      rows = [] ∧ k = l.length ∧ runBytes T capture (p, rb, rows) l = (p1, rb1, []) := by
  intro l
  induction l with
  | nil =>
    intro p rb rows p1 rb1 k h
    by_cases he : rows.isEmpty
    · have hrows : rows = [] := List.isEmpty_iff.1 he
      subst hrows
      have h2 : ((none : Option (List OutRow)), p, rb, (0 : Nat)) = (none, p1, rb1, k) := h
      simp only [Prod.mk.injEq] at h2
      obtain ⟨-, hp, hrb, hk⟩ := h2
      subst hp hrb
      exact ⟨rfl, by simp only [List.length_nil]; omega, rfl⟩
    · have hrows : rows ≠ [] := by
        intro h0
        rw [h0] at he
        simp at he
      rw [show p1Go T capture p rb rows [] =
          (if rows.isEmpty then (none, p, rb, 0) else (some rows, p, rb, 0)) from rfl,
        if_neg he] at h
      simp at h
  | cons b rest ih =>
    intro p rb rows p1 rb1 k h
    by_cases he : rows.isEmpty
    · have hrows : rows = [] := List.isEmpty_iff.1 he
      subst hrows
      rcases hz : stepByte T capture (p, rb, []) b with ⟨q, rbq, rows1⟩
      rcases hw : p1Go T capture q rbq rows1 rest with ⟨res, p2, rb2, k2⟩
      have h2 : (match stepByte T capture (p, rb, ([] : List OutRow)) b with
          | (q, rbq, rows1) =>
            match p1Go T capture q rbq rows1 rest with
            | (res, p2, rb2, k) => (res, p2, rb2, k + 1)) = (none, p1, rb1, k) := h
      rw [hz] at h2
      have h3 : (match p1Go T capture q rbq rows1 rest with
          | (res, p2, rb2, k) => (res, p2, rb2, k + 1)) = (none, p1, rb1, k) := h2
      rw [hw] at h3
      have h4 : (res, p2, rb2, k2 + 1) = (none, p1, rb1, k) := h3
      simp only [Prod.mk.injEq] at h4
      obtain ⟨hres, hp2, hrb2, hk⟩ := h4
      subst hres hp2 hrb2
      obtain ⟨hrows1, hk2, hrun⟩ := ih q rbq rows1 p2 rb2 k2 hw
      refine ⟨rfl, by simp only [List.length_cons]; omega, ?_⟩
      rw [runBytes_cons, hz]
      exact hrun
    · have hrows : rows ≠ [] := by
        intro h0
        rw [h0] at he
        simp at he
      rw [show p1Go T capture p rb rows (b :: rest) =
          (if rows.isEmpty then
            match stepByte T capture (p, rb, rows) b with
            | (q, rbq, rows1) =>
              match p1Go T capture q rbq rows1 rest with
              | (res, p2, rb2, k) => (res, p2, rb2, k + 1)
          else (some rows, p, rb, 0)) from rfl,
        if_neg he] at h
      simp at h

theorem p1Go_ok (T : Tokenizer σ) (capture : Option (List Nat)) :
    ∀ (l : List Byte) (p : σ) (rb : RowBuffer) (rows : List OutRow)
      (rs : List OutRow) (p1 : σ) (rb1 : RowBuffer) (k : Nat),
      p1Go T capture p rb rows l = (some rs, p1, rb1, k) →
      rs ≠ [] ∧ k ≤ l.length ∧
      runBytes T capture (p, rb, rows) (l.take k) = (p1, rb1, rs) ∧
      (rows = [] → 0 < k) := by
  intro l
  induction l with
  | nil =>
    intro p rb rows rs p1 rb1 k h
    by_cases he : rows.isEmpty
    · have hrows : rows = [] := List.isEmpty_iff.1 he
      subst hrows
      have h2 : ((none : Option (List OutRow)), p, rb, (0 : Nat)) = (some rs, p1, rb1, k) := h
      simp at h2
    · have hrows : rows ≠ [] := by
        intro h0
        rw [h0] at he
        simp at he
      rw [show p1Go T capture p rb rows [] =
          (if rows.isEmpty then (none, p, rb, 0) else (some rows, p, rb, 0)) from rfl,
        if_neg he] at h
      simp only [Prod.mk.injEq, Option.some.injEq] at h
      obtain ⟨hrs, hp, hrb, hk⟩ := h
      subst hrs hp hrb
      exact ⟨hrows, by omega, by rw [← hk]; rfl, fun h0 => absurd h0 hrows⟩
  | cons b rest ih =>
    intro p rb rows rs p1 rb1 k h
    by_cases he : rows.isEmpty
    · have hrows : rows = [] := List.isEmpty_iff.1 he
      subst hrows
      rcases hz : stepByte T capture (p, rb, []) b with ⟨q, rbq, rows1⟩
      rcases hw : p1Go T capture q rbq rows1 rest with ⟨res, p2, rb2, k2⟩
      have h2 : (match stepByte T capture (p, rb, ([] : List OutRow)) b with
          | (q, rbq, rows1) =>
            match p1Go T capture q rbq rows1 rest with
            | (res, p2, rb2, k) => (res, p2, rb2, k + 1)) = (some rs, p1, rb1, k) := h
      rw [hz] at h2
      have h3 : (match p1Go T capture q rbq rows1 rest with
          | (res, p2, rb2, k) => (res, p2, rb2, k + 1)) = (some rs, p1, rb1, k) := h2
      rw [hw] at h3
      have h4 : (res, p2, rb2, k2 + 1) = (some rs, p1, rb1, k) := h3
      simp only [Prod.mk.injEq] at h4
      obtain ⟨hres, hp2, hrb2, hk⟩ := h4
      subst hres hp2 hrb2
      obtain ⟨hne, hk2, hrun, -⟩ := ih q rbq rows1 rs p2 rb2 k2 hw
      refine ⟨hne, by simp only [List.length_cons]; omega, ?_, by omega⟩
      rw [← hk, List.take_succ_cons, runBytes_cons, hz]
      exact hrun
    · have hrows : rows ≠ [] := by
        intro h0
        rw [h0] at he
        simp at he
      rw [show p1Go T capture p rb rows (b :: rest) =
          (if rows.isEmpty then
            match stepByte T capture (p, rb, rows) b with
            | (q, rbq, rows1) =>
              match p1Go T capture q rbq rows1 rest with
              | (res, p2, rb2, k) => (res, p2, rb2, k + 1)
          else (some rows, p, rb, 0)) from rfl,
        if_neg he] at h
      simp only [Prod.mk.injEq, Option.some.injEq] at h
      obtain ⟨hrs, hp, hrb, hk⟩ := h
      subst hrs hp hrb
      exact ⟨hrows, by omega, by rw [← hk]; rfl, fun h0 => absurd h0 hrows⟩

theorem stepByte_rows_length (T : Tokenizer σ) (capture : Option (List Nat))
    (pot : σ → Nat) (hc : TwoByteContract T pot) (p : σ) (rb : RowBuffer) (b : Byte) :
    (stepByte T capture (p, rb, []) b).2.2.length ≤ 1 := by
  have h1 : (stepByte T capture (p, rb, []) b).2.2 =
      (processEvents capture rb [] (T.step p b).2).2 := rfl
  rw [h1, processEvents_length]
  have h2 := hc.step_bound p b
  have h3 := hc.pot_le p
  simp only [List.length_nil]
  omega

theorem p1Go_len (T : Tokenizer σ) (capture : Option (List Nat))
    (pot : σ → Nat) (hc : TwoByteContract T pot) :
    ∀ (l : List Byte) (p : σ) (rb : RowBuffer) (rows : List OutRow), rows.length ≤ 1 →
      ∀ (rs : List OutRow) (p1 : σ) (rb1 : RowBuffer) (k : Nat),
        p1Go T capture p rb rows l = (some rs, p1, rb1, k) → rs.length = 1 := by
  intro l
  induction l with
  | nil =>
    intro p rb rows hle rs p1 rb1 k h
    by_cases he : rows.isEmpty
    · rw [show p1Go T capture p rb rows [] =
          (if rows.isEmpty then (none, p, rb, 0) else (some rows, p, rb, 0)) from rfl,
        if_pos he] at h
      simp at h
    · have hrows : rows ≠ [] := by
        intro h0
        rw [h0] at he
        simp at he
      rw [show p1Go T capture p rb rows [] =
          (if rows.isEmpty then (none, p, rb, 0) else (some rows, p, rb, 0)) from rfl,
        if_neg he] at h
      simp only [Prod.mk.injEq, Option.some.injEq] at h
      have hpos : 0 < rows.length := List.length_pos.2 hrows
      rw [← h.1]
      omega
  | cons b rest ih =>
    intro p rb rows hle rs p1 rb1 k h
    by_cases he : rows.isEmpty
    · have hrows : rows = [] := List.isEmpty_iff.1 he
      subst hrows
      rcases hz : stepByte T capture (p, rb, []) b with ⟨q, rbq, rows1⟩
      rcases hw : p1Go T capture q rbq rows1 rest with ⟨res, p2, rb2, k2⟩
      have h2 : (match stepByte T capture (p, rb, ([] : List OutRow)) b with
          | (q, rbq, rows1) =>
            match p1Go T capture q rbq rows1 rest with
            | (res, p2, rb2, k) => (res, p2, rb2, k + 1)) = (some rs, p1, rb1, k) := h
      rw [hz] at h2
      have h3 : (match p1Go T capture q rbq rows1 rest with
          | (res, p2, rb2, k) => (res, p2, rb2, k + 1)) = (some rs, p1, rb1, k) := h2
      rw [hw] at h3
      have h4 : (res, p2, rb2, k2 + 1) = (some rs, p1, rb1, k) := h3
      simp only [Prod.mk.injEq] at h4
      obtain ⟨hres, -, -, -⟩ := h4
      subst hres
      have hlen1 : rows1.length ≤ 1 := by
        have h5 := stepByte_rows_length T capture pot hc p rb b
        rw [hz] at h5
        simpa using h5
      exact ih q rbq rows1 hlen1 rs p2 rb2 k2 hw
    · have hrows : rows ≠ [] := by
        intro h0
        rw [h0] at he
        simp at he
      rw [show p1Go T capture p rb rows (b :: rest) =
          (if rows.isEmpty then
            match stepByte T capture (p, rb, rows) b with
            | (q, rbq, rows1) =>
              match p1Go T capture q rbq rows1 rest with
              | (res, p2, rb2, k) => (res, p2, rb2, k + 1)
          else (some rows, p, rb, 0)) from rfl,
        if_neg he] at h
      simp only [Prod.mk.injEq, Option.some.injEq] at h
      have hpos : 0 < rows.length := List.length_pos.2 hrows
      rw [← h.1]
      omega

theorem parse_one_row_eob (T : Tokenizer σ) (s : SessionState σ)
    (p1 : σ) (rb1 : RowBuffer) (k : Nat)
    (hw : p1Go T s.capture s.parser s.row_buffer [] (remaining s.csv_buffer) =
      (none, p1, rb1, k)) :
    parse_one_row T s = (ParseResult.eob,
      { parser := p1, row_buffer := rb1,
        csv_buffer := { s.csv_buffer with consumed := s.csv_buffer.consumed + k },
        capture := s.capture }) := by
  simp only [parse_one_row, hw]

theorem parse_one_row_ok (T : Tokenizer σ) (s : SessionState σ)
    (rs : List OutRow) (p1 : σ) (rb1 : RowBuffer) (k : Nat)
    (hw : p1Go T s.capture s.parser s.row_buffer [] (remaining s.csv_buffer) =
      (some rs, p1, rb1, k)) :
    parse_one_row T s = (ParseResult.ok rs,
      { parser := p1, row_buffer := rb1,
        csv_buffer := { s.csv_buffer with consumed := s.csv_buffer.consumed + k },
        capture := s.capture }) := by
  simp only [parse_one_row, hw]

theorem driveOneRow_spec (T : Tokenizer σ) :
    ∀ (fuel : Nat) (s : SessionState σ), (remaining s.csv_buffer).length < fuel →
      driveOneRow T fuel s =
        (runBytes T s.capture (s.parser, s.row_buffer, []) (remaining s.csv_buffer)).2.2 := by
  intro fuel
  induction fuel with
  | zero => intro s h; omega
  | succ fuel ih =>
    intro s h
    rcases hw : p1Go T s.capture s.parser s.row_buffer [] (remaining s.csv_buffer)
      with ⟨res, p1, rb1, k⟩
    cases res with
    | none =>
      obtain ⟨-, hk, hrun⟩ := p1Go_eob T s.capture _ _ _ _ _ _ _ hw
      rw [show driveOneRow T (fuel + 1) s = (match parse_one_row T s with
           | (ParseResult.ok rows, s1) => rows ++ driveOneRow T fuel s1
           | (ParseResult.eob, _) => []) from rfl,
        parse_one_row_eob T s p1 rb1 k hw]
      show ([] : List OutRow) = _
      rw [hrun]
    | some rs =>
      obtain ⟨hne, hkle, hrun, hkpos⟩ := p1Go_ok T s.capture _ _ _ _ _ _ _ _ hw
      have hp := parse_one_row_ok T s rs p1 rb1 k hw
      rw [show driveOneRow T (fuel + 1) s = (match parse_one_row T s with
           | (ParseResult.ok rows, s1) => rows ++ driveOneRow T fuel s1
           | (ParseResult.eob, _) => []) from rfl,
        hp]
      show rs ++ driveOneRow T fuel
          { parser := p1, row_buffer := rb1,
            csv_buffer := { s.csv_buffer with consumed := s.csv_buffer.consumed + k },
            capture := s.capture } = _
      have hrem1 : remaining { s.csv_buffer with consumed := s.csv_buffer.consumed + k } =
          (remaining s.csv_buffer).drop k := remaining_add s.csv_buffer k
      have hflen : (remaining { s.csv_buffer with
          consumed := s.csv_buffer.consumed + k }).length < fuel := by
        rw [hrem1]
        have hk1 : 0 < k := hkpos rfl
        simp only [List.length_drop]
        omega
      rw [ih _ hflen]
      show rs ++ (runBytes T s.capture (p1, rb1, [])
          (remaining { s.csv_buffer with consumed := s.csv_buffer.consumed + k })).2.2 = _
      rw [hrem1]
      conv_rhs => rw [← List.take_append_drop k (remaining s.csv_buffer)]
      rw [runBytes_append, hrun,
        runBytes_acc T s.capture ((remaining s.csv_buffer).drop k) p1 rb1 rs]

/-! The concrete sample tokenizer satisfies the two-byte contract. -/

theorem specTok_contract : TwoByteContract specTok specPot := by
  constructor
  · intro st
    exact Nat.min_le_left 1 _
  · intro st b
    rcases st with ⟨pending, started⟩
    show 2 * recordCount (tokStep ⟨pending, started⟩ b).2 +
        specPot (tokStep ⟨pending, started⟩ b).1 ≤ specPot ⟨pending, started⟩ + 1
    by_cases hb44 : b = 44
    · subst hb44
      have hstep : tokStep ⟨pending, started⟩ 44 = (⟨[], true⟩, [Ev.field pending]) := by
        unfold tokStep
        rw [if_pos rfl]
      rw [hstep]
      show 2 * recordCount [Ev.field pending] + specPot ⟨[], true⟩ ≤
          specPot ⟨pending, started⟩ + 1
      have h1 : recordCount [Ev.field pending] = 0 := rfl
      have h2 : specPot ⟨[], true⟩ = 1 := rfl
      omega
    · by_cases hb10 : b = 10
      · subst hb10
        by_cases hrow : (started || !pending.isEmpty) = true
        · have hge : 1 ≤ pending.length + (if started then 1 else 0) := by
            rcases Bool.or_eq_true_iff.1 hrow with hs | hp
            · rw [hs, if_pos rfl]
              omega
            · have hne : pending ≠ [] := by
                intro h0
                rw [h0] at hp
                simp at hp
              have hpos : 0 < pending.length := List.length_pos.2 hne
              omega
          have hstep : tokStep ⟨pending, started⟩ 10 =
              (⟨[], false⟩, [Ev.field pending, Ev.record]) := by
            unfold tokStep
            rw [if_neg (by decide : ¬((10 : Byte) = 44)), if_pos rfl, if_pos hrow]
          rw [hstep]
          show 2 * recordCount [Ev.field pending, Ev.record] + specPot ⟨[], false⟩ ≤
              specPot ⟨pending, started⟩ + 1
          have h1 : recordCount [Ev.field pending, Ev.record] = 1 := rfl
          have h2 : specPot ⟨[], false⟩ = 0 := rfl
          have h3 : 1 ≤ specPot ⟨pending, started⟩ := by
            have h5 : specPot ⟨pending, started⟩ =
                min 1 (pending.length + (if started then 1 else 0)) := rfl
            rw [h5]
            omega
          omega
        · have hstep : tokStep ⟨pending, started⟩ 10 = (⟨[], false⟩, []) := by
            unfold tokStep
            rw [if_neg (by decide : ¬((10 : Byte) = 44)), if_pos rfl, if_neg hrow]
          rw [hstep]
          show 2 * recordCount [] + specPot ⟨[], false⟩ ≤ specPot ⟨pending, started⟩ + 1
          have h1 : recordCount ([] : List Ev) = 0 := rfl
          have h2 : specPot ⟨[], false⟩ = 0 := rfl
          omega
      · have hstep : tokStep ⟨pending, started⟩ b = (⟨pending ++ [b], started⟩, []) := by
          unfold tokStep
          rw [if_neg hb44, if_neg hb10]
        rw [hstep]
        show 2 * recordCount [] + specPot ⟨pending ++ [b], started⟩ ≤
            specPot ⟨pending, started⟩ + 1
        have h1 : recordCount ([] : List Ev) = 0 := rfl
        have h4 : specPot ⟨pending ++ [b], started⟩ ≤ 1 := Nat.min_le_left 1 _
        omega

/-! Claim theorems for the driving calls. -/

/-- Claim C1: provided the tokenizer satisfies its two-byte-per-record
contract, one parse call returns at most MAX_ROWS_PER_BATCH = 64 rows,
because it pulls at most MAX_PARSE_SIZE = 128 bytes; hence the out-buffer
index stays below 64 at every add_row call, which is exactly the assert in
add_row (the k-th appended row finds k - 1 rows already in the batch). -/
theorem parse_batch_bound (T : Tokenizer σ) (pot : σ → Nat) (hc : TwoByteContract T pot)
    (s : SessionState σ) (rows : List OutRow) (s1 : SessionState σ)
    (h : parse T s = (ParseResult.ok rows, s1)) :
    rows.length ≤ MAX_ROWS_PER_BATCH := by
  by_cases hr : remaining s.csv_buffer = []
  · rw [parse_eob T s hr] at h
    simp at h
  · rcases hX : runBytes T s.capture (s.parser, s.row_buffer, [])
        ((remaining s.csv_buffer).take MAX_PARSE_SIZE) with ⟨q, rbq, rows0⟩
    rw [parse_run T s hr q rbq rows0 hX] at h
    have hrows : rows = rows0 := by
      simp only [Prod.mk.injEq, ParseResult.ok.injEq] at h
      exact h.1.symm
    have hbound := runBytes_record_bound T s.capture pot hc
      ((remaining s.csv_buffer).take MAX_PARSE_SIZE) s.parser s.row_buffer
    rw [hX] at hbound
    simp only at hbound
    have hplen : pot s.parser ≤ 1 := hc.pot_le s.parser
    have hchlen : ((remaining s.csv_buffer).take MAX_PARSE_SIZE).length ≤ 128 := by
      have h5 : MAX_PARSE_SIZE = 128 := rfl
      simp only [List.length_take]
      omega
    have hM : MAX_ROWS_PER_BATCH = 64 := rfl
    rw [hrows]
    omega

/-- Witness for parse_batch_bound: parsing the sample session produces one
row, within the 64-row bound. -/
theorem parse_batch_bound_witness :
    ∃ rows s1, parse specTok sampleFed = (ParseResult.ok rows, s1) ∧
      rows.length ≤ MAX_ROWS_PER_BATCH :=
  ⟨[[[97]]], (parse specTok sampleFed).2, by decide,
   parse_batch_bound specTok specPot specTok_contract sampleFed [[[97]]]
     (parse specTok sampleFed).2 (by decide)⟩

/-- Claim C5: a parse_one_row call either returns end-of-buffer, having
consumed the whole remaining input without completing a row, or returns a
batch of exactly one projected row (given the tokenizer's two-byte
contract, under which no single pulled byte can complete two records, and
the loop stops at the first byte that completes one). -/
theorem parse_one_row_spec (T : Tokenizer σ) (pot : σ → Nat) (hc : TwoByteContract T pot)
    (s : SessionState σ) :
    (∃ s1, parse_one_row T s = (ParseResult.eob, s1) ∧ remaining s1.csv_buffer = []) ∨
    (∃ rows s1, parse_one_row T s = (ParseResult.ok rows, s1) ∧ rows.length = 1) := by
  rcases hw : p1Go T s.capture s.parser s.row_buffer [] (remaining s.csv_buffer)
    with ⟨res, p1, rb1, k⟩
  cases res with
  | none =>
    left
    obtain ⟨-, hk, -⟩ := p1Go_eob T s.capture (remaining s.csv_buffer) s.parser s.row_buffer []
      p1 rb1 k hw
    refine ⟨_, parse_one_row_eob T s p1 rb1 k hw, ?_⟩
    show remaining { s.csv_buffer with consumed := s.csv_buffer.consumed + k } = []
    rw [remaining_add, hk, List.drop_length]
  | some rs =>
    right
    exact ⟨rs, _, parse_one_row_ok T s rs p1 rb1 k hw,
      p1Go_len T s.capture pot hc (remaining s.csv_buffer) s.parser s.row_buffer []
        (by simp) rs p1 rb1 k hw⟩

/-- Witness for parse_one_row_spec on the sample session (the call returns
the single row of the field 97). -/
theorem parse_one_row_spec_witness :
    (∃ s1, parse_one_row specTok sampleFed = (ParseResult.eob, s1) ∧
      remaining s1.csv_buffer = []) ∨
    (∃ rows s1, parse_one_row specTok sampleFed = (ParseResult.ok rows, s1) ∧
      rows.length = 1) :=
  parse_one_row_spec specTok specPot specTok_contract sampleFed

/-- Claim C4: on the same session state, draining by repeated parse_one_row
calls and draining by repeated parse calls yield the same concatenation of
rows, in both ordering and content; the fuel arguments only bound the
loops and any value exceeding the number of unconsumed bytes is enough. -/
theorem row_at_a_time_equivalence (T : Tokenizer σ) (s : SessionState σ) (f1 f2 : Nat)
    (h1 : (remaining s.csv_buffer).length < f1)
    (h2 : (remaining s.csv_buffer).length < f2) :
    driveOneRow T f1 s = driveParse T f2 s := by
  rw [driveOneRow_spec T f1 s h1, driveParse_spec T f2 s h2]

/-- Witness for row_at_a_time_equivalence on the sample session. -/
theorem row_at_a_time_equivalence_witness :
    driveOneRow specTok 3 sampleFed = driveParse specTok 4 sampleFed :=
  row_at_a_time_equivalence specTok sampleFed 3 4 (by decide) (by decide)

/-! Driving calls after close: the source keeps no closed flag. -/

theorem parse_eob_iff (T : Tokenizer σ) (s : SessionState σ) :
    (parse T s).1 = ParseResult.eob ↔ remaining s.csv_buffer = [] := by
  constructor
  · intro h
    by_contra hr
    rcases hX : runBytes T s.capture (s.parser, s.row_buffer, [])
        ((remaining s.csv_buffer).take MAX_PARSE_SIZE) with ⟨q, rbq, rows⟩
    rw [parse_run T s hr q rbq rows hX] at h
    simp at h
  · intro h
    rw [parse_eob T s h]

/-- Counterexample to claim C7: struct state has no closed flag and close
sets none, so a driving call after close is processed normally. Here a
session with fed, unparsed bytes is closed (the close itself returns an
empty batch) and the subsequent parse call succeeds and produces an output
row instead of failing with a fatal engine error. -/
theorem close_not_terminal_counterexample :
    (parse specTok (close specTok sampleFed).2).1 = ParseResult.ok [[[97]]] := by decide

/-- Amended claim C7: close finalizes the tokenizer and returns the final
batch but does not mark the session terminal; a subsequent parse behaves
exactly as a normal driving call on the current buffer: it reports the
recoverable end-of-buffer signal when the buffer is exhausted and
otherwise consumes buffered bytes and returns an output batch, never a
fatal engine error. -/
theorem parse_after_close_spec (T : Tokenizer σ) (s : SessionState σ) :
    ((parse T (close T s).2).1 = ParseResult.eob ↔ remaining s.csv_buffer = []) ∧
    (remaining s.csv_buffer ≠ [] →
      ∃ rows s1, parse T (close T s).2 = (ParseResult.ok rows, s1)) := by
  have hbuf : (close T s).2.csv_buffer = s.csv_buffer := rfl
  constructor
  · rw [parse_eob_iff, hbuf]
  · intro hr
    have hr2 : remaining (close T s).2.csv_buffer ≠ [] := by
      rw [hbuf]
      exact hr
    rcases hX : runBytes T (close T s).2.capture
        ((close T s).2.parser, (close T s).2.row_buffer, [])
        ((remaining (close T s).2.csv_buffer).take MAX_PARSE_SIZE) with ⟨q, rbq, rows⟩
    exact ⟨rows, _, parse_run T (close T s).2 hr2 q rbq rows hX⟩

/-- Witness for parse_after_close_spec: parse after close on the sample
session with unconsumed bytes returns an ok batch. -/
theorem parse_after_close_spec_witness :
    ∃ rows s1, parse specTok (close specTok sampleFed).2 = (ParseResult.ok rows, s1) :=
  (parse_after_close_spec specTok sampleFed).2 (by decide)

end Csv
